import Mathlib

set_option maxHeartbeats 1000000

/-
  Verification development for the bcopy collection pipeline.

  The Go sources are shallowly embedded over character-level strings:
  a Go byte string is modelled as a Lean `String` (a list of characters),
  which agrees with the byte view on ASCII data; paths use `/` as the
  separator (the Unix configuration, where `os.PathSeparator = '/'` and
  `filepath.ToSlash` is the identity).  Filesystem reads are modelled by a
  per-file record of the on-disk content together with error flags for the
  open/stat/read syscalls.  `float64` size arithmetic is modelled over `ℚ`
  (the division by `1024*1024` performed by the code is exact for every
  file size the model ranges over).
-/

namespace Bcopy

/-- Model of `filepath.ToSlash`: on the Unix path model the separator is
already `/`, so the normalization is the identity map. -/
def toSlash (p : String) : String := p

/-- Model of `strings.Split` on a single-character separator, used to
denote the `(^|/)name($|/)` regular expressions of the filter: splitting
at every occurrence of `sep`, keeping empty fields. -/
def splitChars (sep : Char) : List Char → List (List Char)
  | [] => [[]]
  | c :: cs =>
    match splitChars sep cs with
    | [] => [[c]]
    | s :: rest => if c = sep then [] :: s :: rest else (c :: s) :: rest

/-- Model of `strings.HasSuffix`. -/
def hasSuffix (s suf : String) : Bool := suf.data.isSuffixOf s.data

/-- Model of `strings.HasPrefix`. -/
def hasPrefixStr (s pre : String) : Bool := pre.data.isPrefixOf s.data

/-- Denotation of the regular expression `(^|/)name($|/)` (for a `name`
containing no separator): some complete `/`-separated field of the path
equals `name`. -/
def segPat (name : String) (p : String) : Bool :=
  (splitChars '/' p.data).contains name.data

/-- Denotation of an end-anchored literal regular expression `lit$`. -/
def suffixPat (s : String) (p : String) : Bool := hasSuffix p s

/-- Denotation of an end-anchored alternation such as `\.(jpg|png)$`:
the path ends with one of the listed literal suffixes. -/
def suffixAnyPat (ss : List String) (p : String) : Bool :=
  ss.any (fun s => hasSuffix p s)

/-- Denotation of an unanchored literal regular expression: the path
contains the literal as a substring. -/
def containsPat (s : String) (p : String) : Bool :=
  p.data.tails.any (fun t => s.data.isPrefixOf t)

/-- Model of Go `path/filepath.Ext`: the suffix of the final path element
starting at its last dot, or the empty string when the final element has
no dot. -/
def goExt (p : String) : String :=
  let rseg := p.data.reverse.takeWhile (fun c => c != '/')
  if rseg.contains '.' then
    String.mk ('.' :: (rseg.takeWhile (fun c => c != '.')).reverse)
  else ""

/-- Model of Go `path/filepath.Base` (Unix): the last element of the path
after trailing separators are removed; `"."` for the empty path and `"/"`
for an all-separator path. -/
def goBase (p : String) : String :=
  if p = "" then "."
  else
    let rest := p.data.reverse.dropWhile (fun c => c == '/')
    if rest = [] then "/"
    else String.mk ((rest.takeWhile (fun c => c != '/')).reverse)

/-- Model of Go `strings.TrimSpace` (the whitespace characters relevant to
ignore files). -/
def isSpaceChar (c : Char) : Bool :=
  c == ' ' || c == '\t' || c == '\n' || c == '\r' || c == Char.ofNat 11 || c == Char.ofNat 12

/-- Model of `strings.TrimSpace`: drop whitespace from both ends. -/
def trimSpace (s : String) : String :=
  String.mk (((s.data.dropWhile isSpaceChar).reverse.dropWhile isSpaceChar).reverse)

/-- Token of a compiled `gobwas/glob` pattern (separator `'/'`), covering
the subset of the syntax this repository's gitignore translation can
produce: literal characters, `*` (any run of non-separator characters),
`**` (any run of characters), `?` (one non-separator character) and simple
character classes. -/
inductive GlobTok where
  | lit : Char → GlobTok
  | one : GlobTok
  | star : GlobTok
  | superStar : GlobTok
  | cls : List Char → GlobTok
deriving DecidableEq

/-- Fuelled parser for the modelled `gobwas/glob` subset.  The fuel
strictly dominates the input length, so `globParse` below never exhausts
it; an unterminated character class is a compile failure, as in
`glob.Compile`.  (Alternates `{...}` and class ranges are outside the
modelled subset: no pattern built by the gitignore translation in this
development uses them.) -/
def globParseAux : Nat → List Char → Option (List GlobTok)
  | 0, _ => none
  | _ + 1, [] => some []
  | f + 1, '*' :: '*' :: cs => (globParseAux f cs).map (fun ts => GlobTok.superStar :: ts)
  | f + 1, '*' :: cs => (globParseAux f cs).map (fun ts => GlobTok.star :: ts)
  | f + 1, '?' :: cs => (globParseAux f cs).map (fun ts => GlobTok.one :: ts)
  | f + 1, '[' :: cs =>
    let body := cs.takeWhile (fun c => c != ']')
    if cs.drop body.length = [] then none
    else (globParseAux f (cs.drop (body.length + 1))).map (fun ts => GlobTok.cls body :: ts)
  | f + 1, '\\' :: c :: cs => (globParseAux f cs).map (fun ts => GlobTok.lit c :: ts)
  | _ + 1, '\\' :: [] => none
  | f + 1, c :: cs => (globParseAux f cs).map (fun ts => GlobTok.lit c :: ts)

/-- Model of `glob.Compile(pattern, '/')` on the modelled subset. -/
def globParse (s : List Char) : Option (List GlobTok) :=
  globParseAux (s.length + 1) s

/-- Fuelled matcher for compiled glob patterns; the fuel strictly
dominates `pattern length + input length`, so `globMatch` below never
exhausts it.  `*` and `?` refuse the separator `'/'`; `**` matches any
run of characters, possibly empty. -/
def globMatchAux : Nat → List GlobTok → List Char → Bool
  | 0, _, _ => false
  | _ + 1, [], [] => true
  | _ + 1, [], _ :: _ => false
  | _ + 1, GlobTok.lit _ :: _, [] => false
  | f + 1, GlobTok.lit c :: ps, d :: ds => c == d && globMatchAux f ps ds
  | _ + 1, GlobTok.one :: _, [] => false
  | f + 1, GlobTok.one :: ps, d :: ds => d != '/' && globMatchAux f ps ds
  | _ + 1, GlobTok.cls _ :: _, [] => false
  | f + 1, GlobTok.cls cs :: ps, d :: ds => cs.contains d && globMatchAux f ps ds
  | f + 1, GlobTok.star :: ps, [] => globMatchAux f ps []
  | f + 1, GlobTok.star :: ps, d :: ds =>
    globMatchAux f ps (d :: ds) || (d != '/' && globMatchAux f (GlobTok.star :: ps) ds)
  | f + 1, GlobTok.superStar :: ps, [] => globMatchAux f ps []
  | f + 1, GlobTok.superStar :: ps, d :: ds =>
    globMatchAux f ps (d :: ds) || globMatchAux f (GlobTok.superStar :: ps) ds

/-- Model of `glob.Glob.Match` for a compiled pattern. -/
def globMatch (p : List GlobTok) (s : List Char) : Bool :=
  globMatchAux (p.length + s.length + 1) p s

/-- Model of `analyzer.Filter`: the extension allow-set, the compiled
exclusion patterns (each compiled regular expression abstracted to its
matching predicate), the compiled gitignore globs and the two
configuration flags. -/
structure Filter where
  allowedExts : List String
  excludePatterns : List (String → Bool)
  gitignoreGlobs : List (List GlobTok)
  respectGitignore : Bool
  excludeTests : Bool

/-- The default extension allow-list of `NewFilter`. -/
def defaultExts : List String :=
  [".go", ".py", ".js", ".jsx", ".ts", ".tsx", ".vue", ".svelte", ".mjs", ".cjs",
   ".yaml", ".yml", ".json", ".toml", ".md", ".txt", ".sh", ".bash",
   ".c", ".cpp", ".h", ".hpp", ".rs", ".java", ".rb", ".php", ".swift", ".kt"]

/-- The `alwaysExclude` baseline patterns of `NewFilter`, each regular
expression replaced by its denotation (`(^|/)x($|/)` becomes a
whole-segment test, `x$` a suffix test, an unanchored literal a substring
test). -/
def alwaysExclude : List (String → Bool) :=
  [segPat "node_modules", segPat "venv", segPat ".venv", segPat "__pycache__",
   segPat ".git", segPat "dist", segPat "build", segPat ".egg-info",
   segPat ".tox", segPat "coverage", segPat ".next", segPat "vendor",
   segPat "bin", segPat "tmp",
   suffixPat ".lock", suffixPat "-lock.json", suffixPat "-lock.yaml",
   suffixPat "Pipfile.lock", suffixPat ".gitignore",
   suffixPat ".exe", suffixPat ".so", suffixPat ".dylib", suffixPat ".dll",
   suffixPat "_templ.go",
   suffixAnyPat [".jpg", ".jpeg", ".png", ".gif", ".bmp", ".svg", ".ico",
                 ".webp", ".tiff", ".tif", ".psd", ".raw", ".heic", ".avif"],
   suffixPat ".pyc", suffixPat ".pyo", suffixPat ".pyd", suffixPat ".egg",
   segPat ".eggs", segPat ".pytest_cache", segPat ".mypy_cache",
   suffixPat ".pb.go", suffixPat "_gen.go", suffixPat ".min.js",
   suffixPat ".bundle.js", containsPat ".eslintcache",
   segPat ".nyc_output", segPat ".yarn", segPat ".npm", segPat "cypress",
   segPat "jest-cache"]

/-- The `testPatterns` of `NewFilter` (`(^|/)tests?($|/)` denotes a
whole segment equal to `test` or `tests`). -/
def testPatterns : List (String → Bool) :=
  [suffixPat "_test.go",
   fun p => segPat "test" p || segPat "tests" p,
   suffixAnyPat [".test.js", ".test.ts", ".test.jsx", ".test.tsx"],
   suffixAnyPat [".spec.js", ".spec.ts", ".spec.jsx", ".spec.tsx"]]

/-- Model of `analyzer.NewFilter`.  Caller patterns arrive already
abstracted to predicates (in the source a pattern failing to compile is
silently dropped at this point, so the predicate list models the compiled
survivors). -/
def NewFilter (allowedExts : List String) (customExcludes : List (String → Bool))
    (respectGitignore : Bool) (excludeTests : Bool) : Filter :=
  let exts :=
    if allowedExts.isEmpty then defaultExts
    else allowedExts.map (fun ext => if hasPrefixStr ext "." then ext else "." ++ ext)
  let allPatterns :=
    (if excludeTests then alwaysExclude ++ testPatterns else alwaysExclude) ++ customExcludes
  { allowedExts := exts, excludePatterns := allPatterns, gitignoreGlobs := [],
    respectGitignore := respectGitignore, excludeTests := excludeTests }

/-- The filter constructed with all defaults (`NewFilter(nil, nil, true, false)`). -/
def defaultFilter : Filter := NewFilter [] [] true false

/-- One line of `Filter.LoadGitignore`: trim; skip blank, `#`-comment and
`!`-negation lines; expand a trailing `/` with `**`; strip a leading `/`
or prepend `**/`; compile, dropping the line on compile failure. -/
def processGitignoreLine (line : String) : Option (List GlobTok) :=
  let line := trimSpace line
  if line = "" || hasPrefixStr line "#" then none
  else if hasPrefixStr line "!" then none
  else
    let p1 := if hasSuffix line "/" then line ++ "**" else line
    let p2 := if hasPrefixStr p1 "/" then String.mk (p1.data.drop 1) else "**/" ++ p1
    globParse p2.data

/-- Model of `Filter.LoadGitignore` applied to the lines of an ignore
file (a missing file corresponds to the empty line list, leaving the
filter unchanged, as does `respectGitignore = false`). -/
def Filter.LoadGitignore (f : Filter) (lines : List String) : Filter :=
  if f.respectGitignore then
    { f with gitignoreGlobs := f.gitignoreGlobs ++ lines.filterMap processGitignoreLine }
  else f

/-- The fixed set of extensionless filenames `Filter.ShouldInclude`
accepts (`commonNoExtFiles` in the source). -/
def commonNoExtFiles : List String :=
  ["Makefile", "Dockerfile", "Rakefile", "Gemfile", "Procfile", "Vagrantfile"]

/-- Model of `Filter.ShouldInclude`: exclusion patterns, then gitignore
globs, then the extension stages, first match winning. -/
def Filter.ShouldInclude (f : Filter) (path0 : String) : Bool :=
  let path := toSlash path0
  if f.excludePatterns.any (fun re => re path) then false
  else if f.respectGitignore && f.gitignoreGlobs.any (fun g => globMatch g path.data) then false
  else
    let ext := goExt path
    let filename := goBase path
    if ext = "" then commonNoExtFiles.contains filename
    else if !(f.allowedExts.contains ext) then false
    else true

/-- Model of `collector.FileData`. -/
structure FileData where
  RelPath : String
  Content : String
  Size : Int
  Language : String
deriving DecidableEq

/-- Model of `collector.CollectionResult`. -/
structure CollectionResult where
  Files : List FileData
  TotalSize : Int
  FileCount : Nat
deriving DecidableEq

/-- The `noExtMap` of `getLanguage`. -/
def noExtMap : List (String × String) :=
  [("Makefile", "makefile"), ("Dockerfile", "dockerfile"), ("Rakefile", "ruby"),
   ("Gemfile", "ruby"), ("Procfile", "yaml"), ("Vagrantfile", "ruby"), ("Cargo", "toml")]

/-- The `languageMap` of `getLanguage` (a Go map with unique keys,
modelled as an association list). -/
def languageMap : List (String × String) :=
  [(".go", "go"), (".py", "python"), (".js", "javascript"), (".jsx", "jsx"),
   (".ts", "typescript"), (".tsx", "tsx"), (".vue", "vue"), (".svelte", "svelte"),
   (".mjs", "javascript"), (".cjs", "javascript"), (".rs", "rust"), (".java", "java"),
   (".c", "c"), (".cpp", "cpp"), (".cc", "cpp"), (".cxx", "cpp"), (".h", "c"),
   (".hpp", "cpp"), (".hh", "cpp"), (".cs", "csharp"), (".rb", "ruby"),
   (".php", "php"), (".swift", "swift"), (".kt", "kotlin"), (".kts", "kotlin"),
   (".scala", "scala"), (".sh", "bash"), (".bash", "bash"), (".zsh", "zsh"),
   (".fish", "fish"), (".yaml", "yaml"), (".yml", "yaml"), (".json", "json"),
   (".xml", "xml"), (".html", "html"), (".htm", "html"), (".css", "css"),
   (".scss", "scss"), (".sass", "sass"), (".less", "less"), (".md", "markdown"),
   (".markdown", "markdown"), (".sql", "sql"), (".toml", "toml"), (".ini", "ini"),
   (".conf", "conf"), (".env", "bash"), (".txt", "text"), (".dockerfile", "dockerfile"),
   (".pl", "perl"), (".pm", "perl"), (".lua", "lua"), (".vim", "vim"),
   (".ex", "elixir"), (".exs", "elixir"), (".erl", "erlang"), (".hrl", "erlang"),
   (".clj", "clojure"), (".cljs", "clojure"), (".dart", "dart"), (".r", "r"),
   (".R", "r"), (".m", "objective-c"), (".mm", "objective-c"), (".groovy", "groovy"),
   (".gradle", "gradle"), (".tf", "terraform"), (".hcl", "hcl")]

/-- Association-list lookup modelling a Go map read. -/
def lookupMap (m : List (String × String)) (k : String) : Option String :=
  (m.find? (fun kv => kv.1 == k)).map (fun kv => kv.2)

/-- Model of `collector.getLanguage`. -/
def getLanguage (filename : String) : String :=
  let base := goBase filename
  let ext := goExt filename
  if ext = "" then (lookupMap noExtMap base).getD ""
  else (lookupMap languageMap ext).getD ""

/-- Model of one on-disk file as seen by a collector worker: its content
(the byte string, as characters) and error flags for the three syscalls
the worker performs.  `os.Stat` reports the content length as the size. -/
structure FileModel where
  content : String
  openErr : Bool
  statErr : Bool
  readErr : Bool
deriving DecidableEq

/-- Model of `collector.fileJob` (the absolute path is the root joined
with `relPath` and carries no extra information, so the job carries the
relative path and the file it designates). -/
structure FileJob where
  relPath : String
  file : FileModel
deriving DecidableEq

/-- Model of `collector.isBinaryFile`: open (an open failure is an
error); read up to the first 8192 bytes (an empty file yields
`(0, io.EOF)`, hence `err != nil && n == 0`, an error); otherwise report
whether the chunk contains a NUL byte. -/
def isBinaryFile (f : FileModel) : Option Bool :=
  if f.openErr then none
  else
    let buf := f.content.data.take 8192
    if buf.length = 0 then none
    else some (buf.contains (Char.ofNat 0))

/-- The worker's `float64(info.Size()) / (1024 * 1024)`, modelled exactly
over `ℚ`. -/
def fileSizeMB (f : FileModel) : ℚ := (f.content.length : ℚ) / (1024 * 1024)

/-- Outcome of one collector worker on one job: skipped silently (binary,
oversized, or binary-check error: nothing is sent), failed (a
`fileResult` carrying an error is sent), or a completed `FileData`
record. -/
inductive JobOutcome where
  | skipped : JobOutcome
  | failed : JobOutcome
  | record : FileData → JobOutcome
deriving DecidableEq

/-- The body of the collector worker for one job (lines 131-183 of the
collector): binary check (error or binary means skip), stat (failure is a
sent error), size limit (a positive `maxFileSizeMB` smaller than the file
size means skip), full read (failure is a sent error), then the
`FileData` record. -/
def processJob (maxFileSizeMB : ℚ) (job : FileJob) : JobOutcome :=
  match isBinaryFile job.file with
  | none => JobOutcome.skipped
  | some true => JobOutcome.skipped
  | some false =>
    if job.file.statErr then JobOutcome.failed
    else if maxFileSizeMB > 0 ∧ fileSizeMB job.file > maxFileSizeMB then JobOutcome.skipped
    else if job.file.readErr then JobOutcome.failed
    else JobOutcome.record
      { RelPath := job.relPath, Content := job.file.content,
        Size := (job.file.content.length : Int), Language := getLanguage job.relPath }

/-- Lexicographic comparison of character lists, modelling Go's built-in
byte-wise `<` on strings (character-wise agrees with byte-wise on ASCII
paths). -/
def strLtB : List Char → List Char → Bool
  | [], [] => false
  | [], _ :: _ => true
  | _ :: _, [] => false
  | a :: as, b :: bs =>
    if a < b then true
    else if b < a then false
    else strLtB as bs

/-- Go's `a < b` on strings. -/
def goLess (a b : String) : Bool := strLtB a.data b.data

/-- The comparison `result.Files[i].RelPath < result.Files[j].RelPath`
used by the final `sort.Slice`, as the total preorder it sorts by
(`a` may precede `b` exactly when `b.RelPath < a.RelPath` fails). -/
def fileLe (a b : FileData) : Prop := goLess b.RelPath a.RelPath = false

instance : DecidableRel fileLe :=
  fun a b => inferInstanceAs (Decidable (goLess b.RelPath a.RelPath = false))

/-- Strict byte-wise path order on records. -/
def fileStrictLt (a b : FileData) : Prop := goLess a.RelPath b.RelPath = true

theorem strLtB_asymm : ∀ x y : List Char, strLtB x y = true → strLtB y x = false := by
  intro x
  induction x with
  | nil => intro y h; cases y <;> simp_all [strLtB]
  | cons a as ih =>
    intro y h
    cases y with
    | nil => simp_all [strLtB]
    | cons b bs =>
      simp only [strLtB] at h ⊢
      by_cases h1 : a < b
      · have h2 : ¬ b < a := lt_asymm h1
        simp [h1, h2]
      · by_cases h2 : b < a
        · simp [h1, h2] at h
        · simp only [h1, h2, if_false] at h ⊢
          simp [ih bs h]

theorem strLtB_trans :
    ∀ x y z : List Char, strLtB x y = true → strLtB y z = true → strLtB x z = true := by
  intro x
  induction x with
  | nil =>
    intro y z h1 h2
    cases y with
    | nil => simp [strLtB] at h1
    | cons b bs => cases z with
      | nil => simp [strLtB] at h2
      | cons c cs => simp [strLtB]
  | cons a as ih =>
    intro y z h1 h2
    cases y with
    | nil => simp [strLtB] at h1
    | cons b bs =>
      cases z with
      | nil => simp [strLtB] at h2
      | cons c cs =>
        simp only [strLtB] at h1 h2 ⊢
        by_cases hab : a < b <;> by_cases hbc : b < c
        · have : a < c := lt_trans hab hbc
          simp [this]
        · by_cases hcb : c < b
          · simp [hab, hbc, hcb] at h2
          · have hbeq : b = c := le_antisymm (not_lt.mp hcb) (not_lt.mp hbc)
            have : a < c := hbeq ▸ hab
            simp [this]
        · by_cases hba : b < a
          · simp [hab, hba] at h1
          · have haeq : a = b := le_antisymm (not_lt.mp hba) (not_lt.mp hab)
            have : a < c := haeq ▸ hbc
            simp [this]
        · by_cases hba : b < a
          · simp [hab, hba] at h1
          · by_cases hcb : c < b
            · simp [hbc, hcb] at h2
            · have haeq : a = b := le_antisymm (not_lt.mp hba) (not_lt.mp hab)
              have hbeq : b = c := le_antisymm (not_lt.mp hcb) (not_lt.mp hbc)
              have hac : ¬ a < c := by rw [haeq, hbeq]; exact lt_irrefl c
              have hca : ¬ c < a := by rw [haeq, hbeq]; exact lt_irrefl c
              simp only [hab, hba, if_false] at h1
              simp only [hbc, hcb, if_false] at h2
              simp only [hac, hca, if_false]
              exact ih bs cs h1 h2

theorem strLtB_connex :
    ∀ x y : List Char, strLtB x y = false → strLtB y x = false → x = y := by
  intro x
  induction x with
  | nil => intro y h1 _; cases y <;> simp_all [strLtB]
  | cons a as ih =>
    intro y h1 h2
    cases y with
    | nil => simp [strLtB] at h2
    | cons b bs =>
      simp only [strLtB] at h1 h2
      by_cases hab : a < b
      · simp [hab] at h1
      · by_cases hba : b < a
        · simp [hba] at h2
        · have hc : a = b := le_antisymm (not_lt.mp hba) (not_lt.mp hab)
          simp only [hab, hba, if_false] at h1 h2
          rw [hc, ih bs h1 h2]

instance : IsTotal FileData fileLe :=
  ⟨fun a b => by
    by_cases h : goLess b.RelPath a.RelPath = true
    · exact Or.inr (strLtB_asymm _ _ h)
    · exact Or.inl (Bool.of_not_eq_true h)⟩

instance : IsTrans FileData fileLe :=
  ⟨fun a b c h1 h2 => by
    unfold fileLe goLess at h1 h2 ⊢
    by_cases h : strLtB c.RelPath.data a.RelPath.data = true
    · by_cases hab : strLtB a.RelPath.data b.RelPath.data = true
      · have := strLtB_trans _ _ _ h hab
        simp [this] at h2
      · have hba : strLtB b.RelPath.data a.RelPath.data = false := h1
        have : a.RelPath.data = b.RelPath.data :=
          strLtB_connex _ _ (Bool.of_not_eq_true hab) hba
        rw [this]
        exact h2
    · exact Bool.of_not_eq_true h⟩

/-- The records extracted from a stream of worker outcomes: the
aggregation loop appends `res.data` for every message without an error
and ignores the rest. -/
def collectRecords (outcomes : List JobOutcome) : List FileData :=
  outcomes.filterMap (fun o =>
    match o with
    | JobOutcome.record d => some d
    | _ => none)

/-- The aggregation step of `Collect` (lines 191-211): drain the results
channel accumulating records and the running total size, then sort the
records by `RelPath` and set the count.  `sort.Slice` is an unspecified
unstable sort; it is modelled by insertion sort, with which it agrees on
every input whose keys are distinct (a sorted permutation with distinct
keys is unique). -/
def aggregate (outcomes : List JobOutcome) : CollectionResult :=
  let collected := collectRecords outcomes
  let totalSize := (collected.map FileData.Size).sum
  let files := List.insertionSort fileLe collected
  { Files := files, TotalSize := totalSize, FileCount := files.length }

/-- The two failure kinds `Collect` can surface: the governing context's
cancellation error, or an I/O error from the initial walk. -/
inductive CollectError where
  | canceled : CollectError
  | ioError : CollectError
deriving DecidableEq

/-- Model of `collector.Collect` after the walk produced `jobs`:
`walkOk = false` models `filepath.WalkDir` failing on the root (the walk
callback itself always returns nil or SkipDir);  `canceled = true` models
the governing context being cancelled while the batch is in progress, in
which case at least one worker returns `ctx.Err()` whenever a job exists,
`eg.Wait()` is non-nil and the partial result is discarded.  Otherwise
every worker runs `processJob`; the outcomes reach the aggregation loop
in an arbitrary completion order, modelled by the index list
`completionOrder` (a faithful execution has `completionOrder` a
permutation of `List.range jobs.length`). -/
def Collect (walkOk : Bool) (canceled : Bool) (maxFileSizeMB : ℚ)
    (jobs : List FileJob) (completionOrder : List Nat) :
    Except CollectError CollectionResult :=
  if !walkOk then Except.error CollectError.ioError
  else if canceled && !jobs.isEmpty then Except.error CollectError.canceled
  else
    let outcomes := jobs.map (processJob maxFileSizeMB)
    let arrived := completionOrder.filterMap (fun i => outcomes.get? i)
    Except.ok (aggregate arrived)

/-- The guaranteed-newline content a file's fenced block carries: the
stored content, with one newline appended when (and only when) the stored
content does not already end in one. -/
def emittedContent (f : FileData) : String :=
  f.Content ++ (if hasSuffix f.Content "\n" then "" else "\n")

/-- One file's section of the markdown document: header, blank line,
opening fence with the language tag, newline-terminated content, closing
fence. -/
def fileBlock (f : FileData) : String :=
  "File: ./" ++ f.RelPath ++ "\n\n" ++ "```" ++ f.Language ++ "\n" ++
    emittedContent f ++ "```" ++ "\n"

/-- File sections joined with the `\n---\n\n` separator between
consecutive sections and none after the last. -/
def joinBlocks : List FileData → String
  | [] => ""
  | [f] => fileBlock f
  | f :: g :: rest => fileBlock f ++ "\n---\n\n" ++ joinBlocks (g :: rest)

/-- One iteration of the `FormatAsMarkdown` loop, writing file `iv.2` at
index `iv.1` of `n` files into the string builder. -/
def mdStep (n : Nat) (sb : String) (iv : Nat × FileData) : String :=
  let i := iv.1
  let file := iv.2
  let sb := sb ++ ("File: ./" ++ file.RelPath ++ "\n\n")
  let sb := sb ++ ("```" ++ file.Language ++ "\n")
  let sb := sb ++ file.Content
  let sb := if !(hasSuffix file.Content "\n") then sb ++ "\n" else sb
  let sb := sb ++ ("```" ++ "\n")
  if i < n - 1 then sb ++ "\n---\n\n" else sb

/-- Model of `collector.FormatAsMarkdown`. -/
def FormatAsMarkdown (result : CollectionResult) : String :=
  (result.Files.enum).foldl (mdStep result.Files.length) ""

instance : DecidableEq (Except CollectError CollectionResult) :=
  fun a b =>
    match a, b with
    | Except.ok x, Except.ok y =>
      if h : x = y then isTrue (by rw [h]) else isFalse (by simp [h])
    | Except.error x, Except.error y =>
      if h : x = y then isTrue (by rw [h]) else isFalse (by simp [h])
    | Except.ok _, Except.error _ => isFalse (by simp)
    | Except.error _, Except.ok _ => isFalse (by simp)

/-- One entry of the modelled directory tree under the walk root: a
regular file, a real directory with its listing (in the lexical order
`filepath.WalkDir` reads it), or a symbolic link together with the result
of `filepath.EvalSymlinks` on it (`none` for a broken link, otherwise the
real target path and whether `os.Stat` reports it as a directory;
`filepath.WalkDir` never follows a link, so the target's own listing
plays no part in the walk). -/
inductive FsEntry where
  | file : String → FsEntry
  | dir : String → List FsEntry → FsEntry
  | symlink : String → Option (String × Bool) → FsEntry

/-- Size of one tree entry, used to bound the walk's recursion depth. -/
def entrySize : FsEntry → Nat
  | FsEntry.file _ => 1
  | FsEntry.symlink _ _ => 1
  | FsEntry.dir _ es => 1 + entriesSize es
where
  /-- Size of a listing. -/
  entriesSize : List FsEntry → Nat
    | [] => 1
    | e :: es => 1 + entrySize e + entriesSize es

/-- The name of an entry inside its parent directory. -/
def entryName : FsEntry → String
  | FsEntry.file n => n
  | FsEntry.dir n _ => n
  | FsEntry.symlink n _ => n

/-- Names of a listing, in order. -/
def namesOf (es : List FsEntry) : List String := es.map entryName

/-- Executable distinctness check on a list of strings. -/
def nodupStr : List String → Bool
  | [] => true
  | s :: ss => !(ss.contains s) && nodupStr ss

/-- The names within one directory listing are distinct (true of every
real filesystem directory). -/
def nodupNames (es : List FsEntry) : Bool := nodupStr (namesOf es)

/-- Fuelled well-formedness of a tree: every directory's listing has
distinct names, recursively. -/
def wfEntryF : Nat → FsEntry → Bool
  | 0, _ => false
  | f + 1, FsEntry.dir _ es => nodupNames es && es.all (wfEntryF f)
  | _ + 1, FsEntry.file _ => true
  | _ + 1, FsEntry.symlink _ _ => true

/-- A relative path as its list of `/`-separated segments (the root is
`[]`). -/
def joinSegs : List String → String
  | [] => ""
  | [s] => s
  | s :: rest => s ++ "/" ++ joinSegs rest

/-- The segment path of a child. -/
def childSegs (segs : List String) (name : String) : List String := segs ++ [name]

/-- The walk's depth of a relative path:
`strings.Count(relPath, string(os.PathSeparator)) + 1`. -/
def depthOf (relPath : String) : Nat :=
  (relPath.data.filter (fun c => c == '/')).length + 1

/-- The traversal state threaded through the walk callback: the
`visitedDirs` map (as its insertion-ordered key list), the emitted
`fileJobs` (as their relative paths), and, as model instrumentation, the
segment path of every directory whose listing the walk reads (the root
included). -/
structure WalkAcc where
  visitedDirs : List String
  jobs : List String
  entered : List (List String)
deriving DecidableEq

/-- The walk over one directory listing, mirroring `filepath.WalkDir`
with the callback of `Collect` (lines 42-91): a broken symlink is
skipped silently; a symlink whose real target is already in
`visitedDirs` makes the callback return `filepath.SkipDir`, which on a
non-directory entry skips the remaining entries of the containing
directory; otherwise a directory target is recorded as visited and the
link falls through to the plain-file logic (the walk never descends
through a link); a subdirectory is pruned when a positive `maxDepth` is
exceeded or the synthetic `<dir>/dummy.go` path fails the filter, and is
otherwise entered; a file passing the filter becomes a job.  The `Nat`
fuel decreases on every recursive call and, starting from any bound
strictly above the recursion depth (`walkTree` uses `sizeOf es + 1`,
which dominates it), is never exhausted; it makes the recursion
structural so that evaluation is kernel-reducible. -/
def walkEntriesF : Nat → Filter → Int → List String → WalkAcc → List FsEntry → WalkAcc
  | 0, _, _, _, acc, _ => acc
  | _ + 1, _, _, _, acc, [] => acc
  | f + 1, fl, md, segs, acc, e :: es =>
    match e with
    | FsEntry.file name =>
      let rel := joinSegs (childSegs segs name)
      let acc2 := if fl.ShouldInclude rel then { acc with jobs := acc.jobs ++ [rel] } else acc
      walkEntriesF f fl md segs acc2 es
    | FsEntry.symlink _ none => walkEntriesF f fl md segs acc es
    | FsEntry.symlink name (some (rp, isDir)) =>
      if acc.visitedDirs.contains rp then acc
      else
        let acc2 := if isDir then { acc with visitedDirs := acc.visitedDirs ++ [rp] } else acc
        let rel := joinSegs (childSegs segs name)
        let acc3 := if fl.ShouldInclude rel then { acc2 with jobs := acc2.jobs ++ [rel] } else acc2
        walkEntriesF f fl md segs acc3 es
    | FsEntry.dir name es2 =>
      let cs := childSegs segs name
      let rel := joinSegs cs
      if md > 0 ∧ (depthOf rel : Int) > md then walkEntriesF f fl md segs acc es
      else if !(fl.ShouldInclude (rel ++ "/dummy.go")) then walkEntriesF f fl md segs acc es
      else
        let acc2 := { acc with entered := acc.entered ++ [cs] }
        let acc3 := walkEntriesF f fl md cs acc2 es2
        walkEntriesF f fl md segs acc3 es

/-- The whole walk of `Collect` over the tree rooted at the walk root:
the callback sees the root itself first (relative path `"."`, a
directory, so it only reads the listing), then the listing is walked.
The fuel `entrySize.entriesSize es + 1` strictly dominates the recursion
depth. -/
def walkTree (fl : Filter) (md : Int) (es : List FsEntry) : WalkAcc :=
  walkEntriesF (entrySize.entriesSize es + 1) fl md []
    { visitedDirs := [], jobs := [], entered := [[]] } es

/-- Fuelled spec-side list of every directory segment path the walk could
possibly enter below `segs`, in traversal order, with no pruning. -/
def fullDirListF : Nat → List String → List FsEntry → List (List String)
  | 0, _, _ => []
  | _ + 1, _, [] => []
  | f + 1, segs, FsEntry.dir n es2 :: rest =>
    (segs ++ [n]) :: (fullDirListF f (segs ++ [n]) es2 ++ fullDirListF f segs rest)
  | f + 1, segs, FsEntry.file _ :: rest => fullDirListF f segs rest
  | f + 1, segs, FsEntry.symlink _ _ :: rest => fullDirListF f segs rest

theorem strDataExt (a b : String) (h : a.data = b.data) : a = b := by
  cases a; cases b; simp_all

theorem mdFold_eq (n : Nat) :
    ∀ (l : List FileData) (k : Nat) (acc : String), n = k + l.length →
      (List.enumFrom k l).foldl (mdStep n) acc = acc ++ joinBlocks l := by
  intro l
  induction l with
  | nil =>
    intro k acc _
    simp [joinBlocks, String.append_empty]
  | cons f rest ih =>
    intro k acc hn
    rw [List.enumFrom_cons, List.foldl_cons]
    cases rest with
    | nil =>
      have hcond : ¬ k < n - 1 := by simp at hn; omega
      simp only [List.enumFrom_nil, List.foldl_nil]
      simp only [mdStep, hcond, if_false]
      apply strDataExt
      by_cases hs : hasSuffix f.Content "\n" <;>
        simp [hs, joinBlocks, fileBlock, emittedContent, String.data_append]
    | cons g rs =>
      have hcond : k < n - 1 := by simp at hn; omega
      have hrec := ih (k + 1) (mdStep n acc (k, f)) (by simp at hn ⊢; omega)
      rw [hrec]
      simp only [mdStep, hcond, if_true]
      apply strDataExt
      by_cases hs : hasSuffix f.Content "\n" <;>
        simp [hs, joinBlocks, fileBlock, emittedContent, String.data_append]

/-- Claim C2: for every CollectionResult, FormatAsMarkdown emits for each
record in order a `File: ./<RelPath>` header, a blank line, an opening
fence tagged with the record's language, the content with a trailing
newline guaranteed (appended exactly when the stored content lacks one,
the stored content staying untouched), the closing fence, and a
`\n---\n\n` separator between consecutive files with none after the
last. -/
theorem formatAsMarkdown_layout :
    (∀ result : CollectionResult, FormatAsMarkdown result = joinBlocks result.Files)
    ∧ (∀ f : FileData, hasSuffix (emittedContent f) "\n" = true)
    ∧ (∀ f : FileData, hasSuffix f.Content "\n" = true → emittedContent f = f.Content)
    ∧ (∀ f : FileData, hasSuffix f.Content "\n" = false →
        emittedContent f = f.Content ++ "\n") := by
  refine ⟨fun result => ?_, fun f => ?_, fun f hs => ?_, fun f hs => ?_⟩
  · have h := mdFold_eq result.Files.length result.Files 0 "" (by simp)
    calc FormatAsMarkdown result
        = (List.enumFrom 0 result.Files).foldl (mdStep result.Files.length) "" := rfl
      _ = "" ++ joinBlocks result.Files := h
      _ = joinBlocks result.Files := rfl
  · by_cases hs : hasSuffix f.Content "\n"
    · simp only [emittedContent, hs, if_true, String.append_empty]
    · simp only [emittedContent, hs, if_false]
      show ("\n".data).isSuffixOf (f.Content ++ "\n").data = true
      have hdata : (f.Content ++ "\n").data = f.Content.data ++ "\n".data := by
        simp
      rw [hdata]
      exact List.isSuffixOf_iff_suffix.mpr (List.suffix_append f.Content.data "\n".data)
  · simp [emittedContent, hs, String.append_empty]
  · simp [emittedContent, hs]

/-- Sample record whose content is newline-terminated. -/
def mdSampleA : FileData :=
  { RelPath := "a.go", Content := "package a\n", Size := 10, Language := "go" }

/-- Sample record whose content lacks a trailing newline. -/
def mdSampleB : FileData :=
  { RelPath := "b.py", Content := "print(1)", Size := 8, Language := "python" }

/-- Witness for the hypothesis-bearing conjuncts of the C2 theorem, at a
newline-terminated and a newline-free content. -/
theorem formatAsMarkdown_layout_witness :
    (hasSuffix mdSampleA.Content "\n" = true ∧ emittedContent mdSampleA = mdSampleA.Content)
    ∧ (hasSuffix mdSampleB.Content "\n" = false
        ∧ emittedContent mdSampleB = mdSampleB.Content ++ "\n") :=
  ⟨⟨by decide, formatAsMarkdown_layout.2.2.1 mdSampleA (by decide)⟩,
   ⟨by decide, formatAsMarkdown_layout.2.2.2 mdSampleB (by decide)⟩⟩

/-- Claim C4: ShouldInclude evaluates its stages in strict order with
first match winning: a matching exclusion pattern excludes; otherwise,
with gitignore honoured, a matching ignore glob excludes; otherwise an
extensionless path is included exactly when its filename is in the fixed
conventional-name set (so the default filter includes `Dockerfile` and
excludes `notes`); otherwise a path whose extension is outside the
allow-set is excluded; otherwise the path is included. -/
theorem shouldInclude_stage_order :
    (∀ (f : Filter) (p : String),
      f.excludePatterns.any (fun re => re (toSlash p)) = true → f.ShouldInclude p = false)
    ∧ (∀ (f : Filter) (p : String),
      f.excludePatterns.any (fun re => re (toSlash p)) = false →
      f.respectGitignore = true →
      f.gitignoreGlobs.any (fun g => globMatch g (toSlash p).data) = true →
      f.ShouldInclude p = false)
    ∧ (∀ (f : Filter) (p : String),
      f.excludePatterns.any (fun re => re (toSlash p)) = false →
      (f.respectGitignore && f.gitignoreGlobs.any (fun g => globMatch g (toSlash p).data))
        = false →
      goExt (toSlash p) = "" →
      f.ShouldInclude p = commonNoExtFiles.contains (goBase (toSlash p)))
    ∧ (∀ (f : Filter) (p : String),
      f.excludePatterns.any (fun re => re (toSlash p)) = false →
      (f.respectGitignore && f.gitignoreGlobs.any (fun g => globMatch g (toSlash p).data))
        = false →
      goExt (toSlash p) ≠ "" →
      f.allowedExts.contains (goExt (toSlash p)) = false →
      f.ShouldInclude p = false)
    ∧ (∀ (f : Filter) (p : String),
      f.excludePatterns.any (fun re => re (toSlash p)) = false →
      (f.respectGitignore && f.gitignoreGlobs.any (fun g => globMatch g (toSlash p).data))
        = false →
      goExt (toSlash p) ≠ "" →
      f.allowedExts.contains (goExt (toSlash p)) = true →
      f.ShouldInclude p = true)
    ∧ defaultFilter.ShouldInclude "Dockerfile" = true
    ∧ defaultFilter.ShouldInclude "notes" = false := by
  refine ⟨fun f p h1 => ?_, fun f p h1 h2 h3 => ?_, fun f p h1 h2 h3 => ?_,
    fun f p h1 h2 h3 h4 => ?_, fun f p h1 h2 h3 h4 => ?_, by decide, by decide⟩
  · simp [Filter.ShouldInclude, h1]
  · simp [Filter.ShouldInclude, h1, h2, h3]
  · simp [Filter.ShouldInclude, h1, h2, h3]
  · simp at h4
    simp [Filter.ShouldInclude, h1, h2, h3, h4]
  · simp at h4
    simp [Filter.ShouldInclude, h1, h2, h3, h4]

/-- Witness for the C4 theorem: the five staged implications applied to
concrete filters and paths. -/
theorem shouldInclude_stage_order_witness :
    (defaultFilter.excludePatterns.any
        (fun re => re (toSlash "node_modules/a.go")) = true
      ∧ defaultFilter.ShouldInclude "node_modules/a.go" = false)
    ∧ ((Filter.LoadGitignore defaultFilter ["/secret.go"]).ShouldInclude "secret.go" = false)
    ∧ (defaultFilter.ShouldInclude "Makefile" = commonNoExtFiles.contains "Makefile")
    ∧ (defaultFilter.ShouldInclude "a.xyz" = false)
    ∧ (defaultFilter.ShouldInclude "src/a.go" = true) := by
  refine ⟨⟨by decide, shouldInclude_stage_order.1 defaultFilter "node_modules/a.go"
      (by decide)⟩, ?_, ?_, ?_, ?_⟩
  · exact shouldInclude_stage_order.2.1 (Filter.LoadGitignore defaultFilter ["/secret.go"])
      "secret.go" (by decide) (by decide) (by decide)
  · exact shouldInclude_stage_order.2.2.1 defaultFilter "Makefile"
      (by decide) (by decide) (by decide)
  · exact shouldInclude_stage_order.2.2.2.1 defaultFilter "a.xyz"
      (by decide) (by decide) (by decide) (by decide)
  · exact shouldInclude_stage_order.2.2.2.2.1 defaultFilter "src/a.go"
      (by decide) (by decide) (by decide) (by decide)

/-- Counterexample to claim C6: a trailing-slash ignore line `output/`
is claimed to match that directory and everything beneath it at any
depth, yet the produced glob `**/output/**` requires a literal separator
before `output`, so a root-level `output/x.go` is NOT excluded (the path
stays included), while the same file one level deeper is excluded. -/
theorem gitignore_depth_counterexample :
    (Filter.LoadGitignore defaultFilter ["output/"]).ShouldInclude "output/x.go" = true
    ∧ (Filter.LoadGitignore defaultFilter ["output/"]).ShouldInclude "a/output/x.go"
        = false := by
  refine ⟨by decide, by decide⟩

/-- Claim C6 as amended: LoadGitignore skips blank lines, `#`-comment
lines and `!`-negation lines entirely; a pattern with a trailing `/`
matches everything strictly beneath a directory of that name only when
that directory itself sits at depth at least one below the root (the
`**/` prefix demands a literal separator), and similarly every other
non-rooted pattern matches only at depth at least one; a pattern with a
leading `/` matches only the root-anchored path; a pattern that fails to
compile is dropped while the remaining patterns still apply. -/
theorem gitignore_patterns_amended :
    (∀ line : String, trimSpace line = "" → processGitignoreLine line = none)
    ∧ (∀ line : String, hasPrefixStr (trimSpace line) "#" = true →
        processGitignoreLine line = none)
    ∧ (∀ line : String, hasPrefixStr (trimSpace line) "!" = true →
        processGitignoreLine line = none)
    ∧ ((Filter.LoadGitignore defaultFilter ["output/"]).ShouldInclude "a/output/x.go"
        = false
      ∧ (Filter.LoadGitignore defaultFilter ["output/"]).ShouldInclude "output/x.go"
        = true)
    ∧ ((Filter.LoadGitignore defaultFilter ["*.xyzzy"]).ShouldInclude "d/a.md" = true
      ∧ (Filter.LoadGitignore defaultFilter ["*.md"]).ShouldInclude "d/a.md" = false
      ∧ (Filter.LoadGitignore defaultFilter ["*.md"]).ShouldInclude "a.md" = true)
    ∧ ((Filter.LoadGitignore defaultFilter ["/foo.go"]).ShouldInclude "foo.go" = false
      ∧ (Filter.LoadGitignore defaultFilter ["/foo.go"]).ShouldInclude "a/foo.go" = true)
    ∧ (processGitignoreLine "[" = none
      ∧ (Filter.LoadGitignore defaultFilter ["[", "*.md"]).gitignoreGlobs.length = 1
      ∧ (Filter.LoadGitignore defaultFilter ["[", "*.md"]).ShouldInclude "d/a.md"
          = false) := by
  refine ⟨fun line h => ?_, fun line h => ?_, fun line h => ?_,
    ⟨by decide, by decide⟩, ⟨by decide, by decide, by decide⟩, ⟨by decide, by decide⟩,
    ⟨by decide, by decide, by decide⟩⟩
  · simp [processGitignoreLine, h]
  · simp [processGitignoreLine, h]
  · simp only [processGitignoreLine]
    split
    · rfl
    · simp [h]

/-- Witness for the hypothesis-bearing conjuncts of the amended C6
theorem: a blank line, a comment line and a negation line are all
dropped. -/
theorem gitignore_patterns_amended_witness :
    (trimSpace "   " = "" ∧ processGitignoreLine "   " = none)
    ∧ (hasPrefixStr (trimSpace "# build artifacts") "#" = true
        ∧ processGitignoreLine "# build artifacts" = none)
    ∧ (hasPrefixStr (trimSpace "!keep.go") "!" = true
        ∧ processGitignoreLine "!keep.go" = none) :=
  ⟨⟨by decide, gitignore_patterns_amended.1 "   " (by decide)⟩,
   ⟨by decide, gitignore_patterns_amended.2.1 "# build artifacts" (by decide)⟩,
   ⟨by decide, gitignore_patterns_amended.2.2.1 "!keep.go" (by decide)⟩⟩

theorem range_filterMap_get {α : Type} (l : List α) :
    (List.range l.length).filterMap l.get? = l := by
  induction l with
  | nil => simp
  | cons x xs ih =>
    rw [List.length_cons, List.range_succ_eq_map, List.filterMap_cons]
    simp only [List.get?_cons_zero]
    rw [List.filterMap_map]
    have h2 : ((x :: xs).get? ∘ fun i => i + 1) = xs.get? := by
      funext i
      simp
    rw [h2, ih]

theorem perm_of_orderPerm {α : Type} (l : List α) (order : List Nat)
    (h : order.Perm (List.range l.length)) : (order.filterMap l.get?).Perm l := by
  have hp := h.filterMap l.get?
  rwa [range_filterMap_get] at hp

theorem mem_of_filterMapGet {α : Type} {l : List α} {order : List Nat} {x : α}
    (h : x ∈ order.filterMap l.get?) : x ∈ l := by
  rcases List.mem_filterMap.mp h with ⟨i, _, hi⟩
  exact List.get?_mem hi

theorem aggregate_files_perm (outs : List JobOutcome) :
    (aggregate outs).Files.Perm (collectRecords outs) :=
  List.perm_insertionSort fileLe (collectRecords outs)

theorem aggregate_files_sorted (outs : List JobOutcome) :
    List.Sorted fileLe (aggregate outs).Files :=
  List.sorted_insertionSort fileLe (collectRecords outs)

theorem mem_collectRecords {outs : List JobOutcome} {d : FileData} :
    d ∈ collectRecords outs ↔ JobOutcome.record d ∈ outs := by
  unfold collectRecords
  rw [List.mem_filterMap]
  constructor
  · rintro ⟨o, ho, heq⟩
    cases o <;> simp_all
  · intro h
    exact ⟨JobOutcome.record d, h, rfl⟩

theorem isBinaryFile_false_inv {f : FileModel} (h : isBinaryFile f = some false) :
    f.openErr = false ∧ f.content.data.take 8192 ≠ []
      ∧ (f.content.data.take 8192).contains (Char.ofNat 0) = false := by
  unfold isBinaryFile at h
  by_cases ho : f.openErr
  · simp [ho] at h
  · simp only [ho, if_false, Bool.false_eq_true] at h
    by_cases hl : (f.content.data.take 8192).length = 0
    · simp [hl] at h
    · simp only [hl, if_false] at h
      refine ⟨by simp [ho], fun hnil => hl (by simp [hnil]), ?_⟩
      simpa using h

theorem processJob_record_inv {m : ℚ} {job : FileJob} {d : FileData}
    (h : processJob m job = JobOutcome.record d) :
    isBinaryFile job.file = some false ∧ job.file.statErr = false
      ∧ ¬(m > 0 ∧ fileSizeMB job.file > m) ∧ job.file.readErr = false
      ∧ d = { RelPath := job.relPath, Content := job.file.content,
              Size := (job.file.content.length : Int),
              Language := getLanguage job.relPath } := by
  unfold processJob at h
  rcases hb : isBinaryFile job.file with _ | b
  · rw [hb] at h
    exact absurd h (by simp)
  · rw [hb] at h
    cases b
    · by_cases hs : job.file.statErr
      · simp [hs] at h
      · simp only [hs, if_false] at h
        by_cases hz : m > 0 ∧ fileSizeMB job.file > m
        · simp [hz] at h
        · simp only [hz, if_false] at h
          by_cases hr : job.file.readErr
          · simp [hr] at h
          · simp only [hr, if_false] at h
            refine ⟨rfl, by simp [hs], hz, by simp [hr], ?_⟩
            exact ((JobOutcome.record.injEq _ _).mp h).symm
    · exact absurd h (by simp)

theorem processJob_skipped_of_binary {m : ℚ} {job : FileJob}
    (h : (job.file.content.data.take 8192).contains (Char.ofNat 0) = true) :
    processJob m job = JobOutcome.skipped := by
  unfold processJob
  rcases hb : isBinaryFile job.file with _ | b
  · rfl
  · cases b
    · exfalso
      rcases isBinaryFile_false_inv hb with ⟨_, _, hy⟩
      rw [hy] at h
      exact Bool.false_ne_true h
    · rfl

theorem processJob_skipped_of_oversized {m : ℚ} {job : FileJob}
    (hb : isBinaryFile job.file = some false) (hs : job.file.statErr = false)
    (hm : m > 0) (hz : fileSizeMB job.file > m) :
    processJob m job = JobOutcome.skipped := by
  unfold processJob
  rw [hb]
  simp [hs, hm, hz]

theorem sorted_strict_of_nodup {l : List FileData} (hs : List.Sorted fileLe l)
    (hn : (l.map FileData.RelPath).Nodup) : l.Pairwise fileStrictLt := by
  have hp : l.Pairwise (fun a b => a.RelPath ≠ b.RelPath) := by
    rw [List.Nodup, List.pairwise_map] at hn
    exact hn
  have hand := List.Pairwise.and hs hp
  refine hand.imp ?_
  rintro a b ⟨hle, hne⟩
  by_cases hab : strLtB a.RelPath.data b.RelPath.data = true
  · exact hab
  · exfalso
    have heq : a.RelPath.data = b.RelPath.data :=
      strLtB_connex _ _ (Bool.of_not_eq_true hab) hle
    exact hne (strDataExt _ _ heq)

theorem strict_sorted_unique {l1 l2 : List FileData} (hp : l1.Perm l2)
    (h1 : l1.Pairwise fileStrictLt) (h2 : l2.Pairwise fileStrictLt) : l1 = l2 := by
  haveI : IsAntisymm FileData fileStrictLt :=
    ⟨fun a b hab hba => by
      have h1 : strLtB a.RelPath.data b.RelPath.data = true := hab
      have h2 : strLtB b.RelPath.data a.RelPath.data = true := hba
      have h3 := strLtB_asymm _ _ h1
      rw [h2] at h3
      exact absurd h3 (by simp)⟩
  exact List.eq_of_perm_of_sorted hp h1 h2

theorem collect_relPaths_sublist (m : ℚ) :
    ∀ jobs : List FileJob,
      ((collectRecords (jobs.map (processJob m))).map FileData.RelPath).Sublist
        (jobs.map FileJob.relPath) := by
  intro jobs
  induction jobs with
  | nil => simp [collectRecords]
  | cons j js ih =>
    rw [List.map_cons, List.map_cons]
    unfold collectRecords at ih ⊢
    rw [List.filterMap_cons]
    rcases ho : processJob m j with _ | _ | d
    · exact ih.cons j.relPath
    · exact ih.cons j.relPath
    · rw [List.map_cons]
      have hd := processJob_record_inv ho
      have : d.RelPath = j.relPath := by rw [hd.2.2.2.2]
      rw [this]
      exact ih.cons₂ j.relPath

theorem aggregate_totalSize (outs : List JobOutcome) :
    (aggregate outs).TotalSize = ((aggregate outs).Files.map FileData.Size).sum := by
  have hperm : ((aggregate outs).Files.map FileData.Size).Perm
      ((collectRecords outs).map FileData.Size) := (aggregate_files_perm outs).map _
  have hsum := hperm.sum_eq
  rw [hsum]
  rfl

theorem aggregate_fileCount (outs : List JobOutcome) :
    (aggregate outs).FileCount = (aggregate outs).Files.length := rfl

theorem collect_ok_inv {wk cl : Bool} {m : ℚ} {jobs : List FileJob}
    {order : List Nat} {r : CollectionResult}
    (h : Collect wk cl m jobs order = Except.ok r) :
    wk = true
      ∧ r = aggregate (order.filterMap (fun i => (jobs.map (processJob m)).get? i)) := by
  unfold Collect at h
  by_cases hw : wk
  · simp only [hw, Bool.not_true, Bool.false_eq_true, if_false] at h
    by_cases hc : (cl && !jobs.isEmpty) = true
    · simp [hc] at h
    · simp only [hc, if_false] at h
      exact ⟨hw, (Except.ok.injEq _ _).mp h.symm⟩
  · simp [Bool.of_not_eq_true hw] at h

theorem collectRecords_perm {l1 l2 : List JobOutcome} (h : l1.Perm l2) :
    (collectRecords l1).Perm (collectRecords l2) :=
  h.filterMap _

theorem mem_files_exists_job {wk cl : Bool} {m : ℚ} {jobs : List FileJob}
    {order : List Nat} {r : CollectionResult} {f : FileData}
    (hok : Collect wk cl m jobs order = Except.ok r) (hmem : f ∈ r.Files) :
    ∃ job, job ∈ jobs ∧ processJob m job = JobOutcome.record f := by
  obtain ⟨-, hr⟩ := collect_ok_inv hok
  subst hr
  have h1 : f ∈ collectRecords (order.filterMap fun i => (jobs.map (processJob m)).get? i) :=
    ((aggregate_files_perm _).mem_iff).mp hmem
  have h2 := mem_collectRecords.mp h1
  have h3 : JobOutcome.record f ∈ jobs.map (processJob m) := mem_of_filterMapGet h2
  rcases List.mem_map.mp h3 with ⟨job, hj, hrec⟩
  exact ⟨job, hj, hrec⟩

theorem processJob_empty_skipped (m : ℚ) (job : FileJob)
    (hc : job.file.content = "") : processJob m job = JobOutcome.skipped := by
  unfold processJob isBinaryFile
  by_cases ho : job.file.openErr <;> simp [hc, ho]

/-- Claim C1: the Files of a successful Collect contain no two records
with the same RelPath and are sorted in strictly ascending byte-wise
RelPath order, and the whole result is identical for any worker
completion order and any filesystem enumeration order of the same job
set (distinct relative paths, as the walk produces). -/
theorem collect_sorted_deterministic :
    ∀ (m : ℚ) (jobs1 jobs2 : List FileJob) (ord1 ord2 : List Nat)
      (r1 r2 : CollectionResult),
      (jobs1.map FileJob.relPath).Nodup →
      ord1.Perm (List.range jobs1.length) →
      Collect true false m jobs1 ord1 = Except.ok r1 →
      jobs2.Perm jobs1 →
      ord2.Perm (List.range jobs2.length) →
      Collect true false m jobs2 ord2 = Except.ok r2 →
      r1.Files.Pairwise fileStrictLt ∧ r1 = r2 := by
  intro m jobs1 jobs2 ord1 ord2 r1 r2 hnd hp1 hc1 hjp hp2 hc2
  obtain ⟨-, hr1⟩ := collect_ok_inv hc1
  obtain ⟨-, hr2⟩ := collect_ok_inv hc2
  have ha1 : (ord1.filterMap fun i => (jobs1.map (processJob m)).get? i).Perm
      (jobs1.map (processJob m)) :=
    perm_of_orderPerm _ ord1 (by simpa using hp1)
  have ha2 : (ord2.filterMap fun i => (jobs2.map (processJob m)).get? i).Perm
      (jobs2.map (processJob m)) :=
    perm_of_orderPerm _ ord2 (by simpa using hp2)
  have houts : (jobs2.map (processJob m)).Perm (jobs1.map (processJob m)) :=
    hjp.map (processJob m)
  have hF1 : r1.Files.Perm (collectRecords (jobs1.map (processJob m))) := by
    rw [hr1]
    exact (aggregate_files_perm _).trans (collectRecords_perm ha1)
  have hF2 : r2.Files.Perm (collectRecords (jobs1.map (processJob m))) := by
    rw [hr2]
    exact (aggregate_files_perm _).trans
      ((collectRecords_perm ha2).trans (collectRecords_perm houts))
  have hnodup : ((collectRecords (jobs1.map (processJob m))).map FileData.RelPath).Nodup :=
    (collect_relPaths_sublist m jobs1).nodup hnd
  have hstrict1 : r1.Files.Pairwise fileStrictLt := by
    apply sorted_strict_of_nodup
    · rw [hr1]; exact aggregate_files_sorted _
    · exact ((hF1.map FileData.RelPath).nodup_iff).mpr hnodup
  have hstrict2 : r2.Files.Pairwise fileStrictLt := by
    apply sorted_strict_of_nodup
    · rw [hr2]; exact aggregate_files_sorted _
    · exact ((hF2.map FileData.RelPath).nodup_iff).mpr hnodup
  have hFeq : r1.Files = r2.Files :=
    strict_sorted_unique (hF1.trans hF2.symm) hstrict1 hstrict2
  have hTeq : r1.TotalSize = r2.TotalSize := by
    rw [hr1, hr2, aggregate_totalSize, aggregate_totalSize, ← hr1, ← hr2, hFeq]
  have hCeq : r1.FileCount = r2.FileCount := by
    rw [hr1, hr2, aggregate_fileCount, aggregate_fileCount, ← hr1, ← hr2, hFeq]
  refine ⟨hstrict1, ?_⟩
  cases r1
  cases r2
  simp_all

/-- Claim C10: in every successful CollectionResult, FileCount is the
length of Files and TotalSize is the sum of the record sizes. -/
theorem collect_count_size :
    ∀ (wk cl : Bool) (m : ℚ) (jobs : List FileJob) (order : List Nat)
      (r : CollectionResult),
      Collect wk cl m jobs order = Except.ok r →
      r.FileCount = r.Files.length
        ∧ r.TotalSize = (r.Files.map FileData.Size).sum := by
  intro wk cl m jobs order r h
  obtain ⟨-, hr⟩ := collect_ok_inv h
  subst hr
  exact ⟨aggregate_fileCount _, aggregate_totalSize _⟩

/-- Claim C9: a zero-byte file never appears in a CollectionResult:
the binary check's single read yields zero bytes with an end-of-file
error, which the worker treats like a binary classification, skipping
the file silently; consequently every record of a successful result has
nonempty content. -/
theorem collect_skips_zero_byte :
    (∀ (m : ℚ) (job : FileJob), job.file.content = "" →
      processJob m job = JobOutcome.skipped)
    ∧ (∀ (wk cl : Bool) (m : ℚ) (jobs : List FileJob) (order : List Nat)
        (r : CollectionResult) (f : FileData),
        Collect wk cl m jobs order = Except.ok r → f ∈ r.Files → f.Content ≠ "") := by
  constructor
  · exact processJob_empty_skipped
  · intro wk cl m jobs order r f hok hmem hContent
    rcases mem_files_exists_job hok hmem with ⟨job, _, hrec⟩
    have hinv := processJob_record_inv hrec
    have hfc : f.Content = job.file.content := by rw [hinv.2.2.2.2]
    have := processJob_empty_skipped m job (by rw [← hfc, hContent])
    rw [this] at hrec
    exact absurd hrec (by simp)

/-- Claim C3: every record of a successful Collect came from a job whose
first up-to-8-KiB chunk contained no NUL byte and whose stat-reported
size is within any positive configured limit; a file whose chunk has a
NUL byte, or whose size exceeds a positive limit, is skipped without
producing an error. -/
theorem collect_files_nonbinary_within_limit :
    (∀ (wk cl : Bool) (m : ℚ) (jobs : List FileJob) (order : List Nat)
       (r : CollectionResult) (f : FileData),
       Collect wk cl m jobs order = Except.ok r → f ∈ r.Files →
       ∃ job, job ∈ jobs ∧ processJob m job = JobOutcome.record f
         ∧ (job.file.content.data.take 8192).contains (Char.ofNat 0) = false
         ∧ (m > 0 → fileSizeMB job.file ≤ m))
    ∧ (∀ (m : ℚ) (job : FileJob),
        (job.file.content.data.take 8192).contains (Char.ofNat 0) = true →
        processJob m job = JobOutcome.skipped)
    ∧ (∀ (m : ℚ) (job : FileJob), isBinaryFile job.file = some false →
        job.file.statErr = false → m > 0 → fileSizeMB job.file > m →
        processJob m job = JobOutcome.skipped) := by
  refine ⟨?_, @processJob_skipped_of_binary, @processJob_skipped_of_oversized⟩
  intro wk cl m jobs order r f hok hmem
  rcases mem_files_exists_job hok hmem with ⟨job, hj, hrec⟩
  have hinv := processJob_record_inv hrec
  rcases isBinaryFile_false_inv hinv.1 with ⟨-, -, hnul⟩
  refine ⟨job, hj, hrec, hnul, fun hm => ?_⟩
  by_contra hgt
  exact hinv.2.2.1 ⟨hm, lt_of_not_le hgt⟩

/-- Claim C7: cancellation observed while a batch is in progress makes
Collect fail with the cancellation kind — distinct from the I/O error
kind — and return no result, while an individual file's read failure
never fails the call: a worker's failed outcome is simply dropped by the
aggregation. -/
theorem collect_cancellation_soft_failures :
    (∀ (m : ℚ) (jobs : List FileJob) (order : List Nat), jobs ≠ [] →
      Collect true true m jobs order = Except.error CollectError.canceled)
    ∧ (∀ (m : ℚ) (jobs : List FileJob) (order : List Nat) (e : CollectError),
        Collect true false m jobs order ≠ Except.error e)
    ∧ CollectError.canceled ≠ CollectError.ioError
    ∧ (∀ outs : List JobOutcome, aggregate (JobOutcome.failed :: outs) = aggregate outs)
    ∧ (∀ (m : ℚ) (job : FileJob), isBinaryFile job.file = some false →
        job.file.statErr = false → ¬(m > 0 ∧ fileSizeMB job.file > m) →
        job.file.readErr = true → processJob m job = JobOutcome.failed) := by
  refine ⟨fun m jobs order h => ?_, fun m jobs order e => ?_, by decide,
    fun outs => ?_, fun m job hb hs hz hr => ?_⟩
  · have hne : jobs.isEmpty = false := by
      cases jobs
      · exact absurd rfl h
      · rfl
    simp [Collect, hne]
  · simp [Collect]
  · simp [aggregate, collectRecords]
  · unfold processJob
    rw [hb]
    simp [hs, hz, hr]

/-- Sample job: readable text file `b.txt`. -/
def wJobA : FileJob :=
  { relPath := "b.txt",
    file := { content := "x\n", openErr := false, statErr := false, readErr := false } }

/-- Sample job: readable text file `a.txt`. -/
def wJobB : FileJob :=
  { relPath := "a.txt",
    file := { content := "y\n", openErr := false, statErr := false, readErr := false } }

/-- The record produced for `wJobA`. -/
def wRecA : FileData :=
  { RelPath := "b.txt", Content := "x\n", Size := 2, Language := "text" }

/-- The record produced for `wJobB`. -/
def wRecB : FileData :=
  { RelPath := "a.txt", Content := "y\n", Size := 2, Language := "text" }

/-- The result of collecting both sample jobs. -/
def wRes : CollectionResult := { Files := [wRecB, wRecA], TotalSize := 4, FileCount := 2 }

/-- The result of collecting only `wJobA`. -/
def wResA : CollectionResult := { Files := [wRecA], TotalSize := 2, FileCount := 1 }

/-- Witness for the C1 theorem: the same two jobs handed over in both
orders, with reversed worker completion orders, give one strictly sorted
result. -/
theorem collect_sorted_deterministic_witness :
    (([wJobA, wJobB].map FileJob.relPath).Nodup
      ∧ [1, 0].Perm (List.range [wJobA, wJobB].length)
      ∧ Collect true false 0 [wJobA, wJobB] [1, 0] = Except.ok wRes
      ∧ [wJobB, wJobA].Perm [wJobA, wJobB]
      ∧ [0, 1].Perm (List.range [wJobB, wJobA].length)
      ∧ Collect true false 0 [wJobB, wJobA] [0, 1] = Except.ok wRes)
    ∧ (wRes.Files.Pairwise fileStrictLt ∧ wRes = wRes) :=
  ⟨⟨by decide, by decide, by decide, by decide, by decide, by decide⟩,
   collect_sorted_deterministic 0 [wJobA, wJobB] [wJobB, wJobA] [1, 0] [0, 1] wRes wRes
     (by decide) (by decide) (by decide) (by decide) (by decide) (by decide)⟩

/-- Witness for the C10 theorem at the single-job collection. -/
theorem collect_count_size_witness :
    Collect true false 0 [wJobA] [0] = Except.ok wResA
      ∧ (wResA.FileCount = wResA.Files.length
        ∧ wResA.TotalSize = (wResA.Files.map FileData.Size).sum) :=
  ⟨by decide, collect_count_size true false 0 [wJobA] [0] wResA (by decide)⟩

/-- Sample job: zero-byte file. -/
def wEmptyJob : FileJob :=
  { relPath := "empty.txt",
    file := { content := "", openErr := false, statErr := false, readErr := false } }

/-- Witness for the C9 theorem: the zero-byte job is skipped, and the
record of a successful collection has nonempty content. -/
theorem collect_skips_zero_byte_witness :
    (wEmptyJob.file.content = "" ∧ processJob 0 wEmptyJob = JobOutcome.skipped)
    ∧ (Collect true false 0 [wJobA] [0] = Except.ok wResA
      ∧ wRecA ∈ wResA.Files ∧ wRecA.Content ≠ "") :=
  ⟨⟨by decide, collect_skips_zero_byte.1 0 wEmptyJob (by decide)⟩,
   ⟨by decide, by decide,
    collect_skips_zero_byte.2 true false 0 [wJobA] [0] wResA wRecA (by decide) (by decide)⟩⟩

/-- Sample job: file whose first bytes contain a NUL. -/
def wNulJob : FileJob :=
  { relPath := "bin.txt",
    file := { content := "a\x00b", openErr := false, statErr := false, readErr := false } }

/-- Sample job: two-byte file, oversized against a limit below two bytes. -/
def wBigJob : FileJob :=
  { relPath := "big.txt",
    file := { content := "xy", openErr := false, statErr := false, readErr := false } }

/-- Witness for the C3 theorem: a successful collection, a NUL-carrying
job that is skipped, and a job oversized against a positive limit that is
skipped. -/
theorem collect_files_nonbinary_within_limit_witness :
    (Collect true false 0 [wJobA] [0] = Except.ok wResA
      ∧ wRecA ∈ wResA.Files
      ∧ (∃ job, job ∈ [wJobA] ∧ processJob 0 job = JobOutcome.record wRecA
          ∧ (job.file.content.data.take 8192).contains (Char.ofNat 0) = false
          ∧ ((0 : ℚ) > 0 → fileSizeMB job.file ≤ 0)))
    ∧ ((wNulJob.file.content.data.take 8192).contains (Char.ofNat 0) = true
      ∧ processJob 0 wNulJob = JobOutcome.skipped)
    ∧ (isBinaryFile wBigJob.file = some false ∧ wBigJob.file.statErr = false
      ∧ (1 : ℚ) / 1048576 > 0 ∧ fileSizeMB wBigJob.file > 1 / 1048576
      ∧ processJob (1 / 1048576) wBigJob = JobOutcome.skipped) := by
  have hm : (1 : ℚ) / 1048576 > 0 := by norm_num
  have hlen : wBigJob.file.content.length = 2 := rfl
  have hsz : fileSizeMB wBigJob.file > 1 / 1048576 := by
    unfold fileSizeMB
    rw [hlen]
    norm_num
  refine ⟨⟨by decide, by decide,
      collect_files_nonbinary_within_limit.1 true false 0 [wJobA] [0] wResA wRecA
        (by decide) (by decide)⟩,
    ⟨by decide, collect_files_nonbinary_within_limit.2.1 0 wNulJob (by decide)⟩,
    ⟨by decide, by decide, hm, hsz,
      collect_files_nonbinary_within_limit.2.2 (1 / 1048576) wBigJob (by decide)
        (by decide) hm hsz⟩⟩

/-- Sample job: readable classification, failing full read. -/
def wFailJob : FileJob :=
  { relPath := "gone.txt",
    file := { content := "x\n", openErr := false, statErr := false, readErr := true } }

/-- Witness for the C7 theorem: cancellation on a nonempty batch fails
with the cancellation kind; without cancellation a batch containing a
read-failing job still fails with no error; a failed outcome leaves the
aggregate untouched. -/
theorem collect_cancellation_soft_failures_witness :
    ([wJobA] ≠ [] ∧ Collect true true 0 [wJobA] [0] = Except.error CollectError.canceled)
    ∧ Collect true false 0 [wFailJob] [0] ≠ Except.error CollectError.canceled
    ∧ aggregate [JobOutcome.failed] = aggregate []
    ∧ (isBinaryFile wFailJob.file = some false ∧ wFailJob.file.statErr = false
      ∧ ¬((0 : ℚ) > 0 ∧ fileSizeMB wFailJob.file > 0) ∧ wFailJob.file.readErr = true
      ∧ processJob 0 wFailJob = JobOutcome.failed) :=
  ⟨⟨by decide, collect_cancellation_soft_failures.1 0 [wJobA] [0] (by decide)⟩,
   collect_cancellation_soft_failures.2.1 0 [wFailJob] [0] CollectError.canceled,
   collect_cancellation_soft_failures.2.2.2.1 [],
   ⟨by decide, by decide, by decide, by decide,
    collect_cancellation_soft_failures.2.2.2.2 0 wFailJob (by decide) (by decide)
      (by decide) (by decide)⟩⟩

/-- The tree `root/a.txt`, `root/sub/b.txt` of the max-depth test. -/
def c5tree : List FsEntry := [FsEntry.file "a.txt", FsEntry.dir "sub" [FsEntry.file "b.txt"]]

/-- Counterexample to claim C5: with maxDepth = 1 the walk emits jobs for
BOTH `a.txt` and `sub/b.txt`, because the directory `sub` has depth 1,
which does not exceed maxDepth, so it is not pruned — the claim (and the
spec's example) say only `a.txt` is enumerated. -/
theorem maxdepth_counterexample :
    defaultFilter.ShouldInclude "sub/b.txt" = true
    ∧ (walkTree defaultFilter 1 c5tree).jobs = ["a.txt", "sub/b.txt"] :=
  ⟨by decide, by decide⟩

/-- The deeper tree `root/a.txt`, `root/sub/s2/c.txt`. -/
def c5deep : List FsEntry :=
  [FsEntry.file "a.txt", FsEntry.dir "sub" [FsEntry.dir "s2" [FsEntry.file "c.txt"]]]

/-- Claim C5 as amended: a directory is pruned together with its whole
subtree exactly when a positive maxDepth is set and the directory's
depth (separator count of its relative path plus one) exceeds it;
otherwise (filter permitting) the walk descends.  Hence with
maxDepth = 1 the tree `root/a.txt`, `root/sub/b.txt` yields jobs for
both files (depth of `sub` is 1, not pruned), while `root/sub/s2/c.txt`
is pruned (depth of `sub/s2` is 2). -/
theorem maxdepth_prune_rule_amended :
    (∀ (f : Nat) (fl : Filter) (md : Int) (segs : List String) (acc : WalkAcc)
       (n : String) (es2 rest : List FsEntry),
       md > 0 → (depthOf (joinSegs (childSegs segs n)) : Int) > md →
       walkEntriesF (f + 1) fl md segs acc (FsEntry.dir n es2 :: rest)
         = walkEntriesF f fl md segs acc rest)
    ∧ (∀ (f : Nat) (fl : Filter) (md : Int) (segs : List String) (acc : WalkAcc)
       (n : String) (es2 rest : List FsEntry),
       ¬(md > 0 ∧ (depthOf (joinSegs (childSegs segs n)) : Int) > md) →
       fl.ShouldInclude (joinSegs (childSegs segs n) ++ "/dummy.go") = true →
       walkEntriesF (f + 1) fl md segs acc (FsEntry.dir n es2 :: rest)
         = walkEntriesF f fl md segs
             (walkEntriesF f fl md (childSegs segs n)
               { acc with entered := acc.entered ++ [childSegs segs n] } es2) rest)
    ∧ (walkTree defaultFilter 1 c5tree).jobs = ["a.txt", "sub/b.txt"]
    ∧ (walkTree defaultFilter 1 c5deep).jobs = ["a.txt"] := by
  refine ⟨fun f fl md segs acc n es2 rest h1 h2 => ?_,
    fun f fl md segs acc n es2 rest h1 h2 => ?_, by decide, by decide⟩
  · simp [walkEntriesF, h1, h2]
  · simp [walkEntriesF, h1, h2]

/-- The initial accumulator of `walkTree`. -/
def wAcc0 : WalkAcc := { visitedDirs := [], jobs := [], entered := [[]] }

/-- Witness for the amended C5 theorem: pruning at depth 2 with
maxDepth 1, and descent at depth 1. -/
theorem maxdepth_prune_rule_amended_witness :
    ((1 : Int) > 0
      ∧ (depthOf (joinSegs (childSegs ["sub"] "s2")) : Int) > 1
      ∧ walkEntriesF 5 defaultFilter 1 ["sub"] wAcc0 [FsEntry.dir "s2" [FsEntry.file "c.txt"]]
          = walkEntriesF 4 defaultFilter 1 ["sub"] wAcc0 [])
    ∧ (¬((1 : Int) > 0 ∧ (depthOf (joinSegs (childSegs [] "sub")) : Int) > 1)
      ∧ defaultFilter.ShouldInclude (joinSegs (childSegs [] "sub") ++ "/dummy.go") = true
      ∧ walkEntriesF 5 defaultFilter 1 [] wAcc0 [FsEntry.dir "sub" [FsEntry.file "b.txt"]]
          = walkEntriesF 4 defaultFilter 1 []
              (walkEntriesF 4 defaultFilter 1 (childSegs [] "sub")
                { wAcc0 with entered := wAcc0.entered ++ [childSegs [] "sub"] }
                [FsEntry.file "b.txt"]) []) :=
  ⟨⟨by decide, by decide,
    maxdepth_prune_rule_amended.1 4 defaultFilter 1 ["sub"] wAcc0 "s2"
      [FsEntry.file "c.txt"] [] (by decide) (by decide)⟩,
   ⟨by decide, by decide,
    maxdepth_prune_rule_amended.2.1 4 defaultFilter 1 [] wAcc0 "sub"
      [FsEntry.file "b.txt"] [] (by decide) (by decide)⟩⟩

theorem nodupStr_head {s : String} {ss : List String} (h : nodupStr (s :: ss) = true) :
    s ∉ ss ∧ nodupStr ss = true := by
  simp only [nodupStr, Bool.and_eq_true, Bool.not_eq_true'] at h
  refine ⟨fun hm => ?_, h.2⟩
  have : ss.contains s = true := by
    simpa using hm
  rw [this] at h
  exact absurd h.1 (by simp)

theorem fullDirListF_shape :
    ∀ (fd : Nat) (es : List FsEntry) (segs : List String) (q : List String),
      q ∈ fullDirListF fd segs es →
      ∃ n rest2, n ∈ namesOf es ∧ q = segs ++ n :: rest2 := by
  intro fd
  induction fd with
  | zero =>
    intro es segs q h
    simp [fullDirListF] at h
  | succ fd ih =>
    intro es segs q h
    cases es with
    | nil => simp [fullDirListF] at h
    | cons e rest =>
      cases e with
      | file n =>
        simp only [fullDirListF] at h
        rcases ih rest segs q h with ⟨n2, r2, hmem, heq⟩
        exact ⟨n2, r2, List.mem_cons_of_mem _ hmem, heq⟩
      | symlink n t =>
        simp only [fullDirListF] at h
        rcases ih rest segs q h with ⟨n2, r2, hmem, heq⟩
        exact ⟨n2, r2, List.mem_cons_of_mem _ hmem, heq⟩
      | dir n es2 =>
        simp only [fullDirListF, List.mem_cons, List.mem_append] at h
        rcases h with h | h | h
        · exact ⟨n, [], List.mem_cons_self _ _, by simp [h]⟩
        · rcases ih es2 (segs ++ [n]) q h with ⟨m, r, _, heq⟩
          refine ⟨n, m :: r, List.mem_cons_self _ _, ?_⟩
          rw [heq]
          simp
        · rcases ih rest segs q h with ⟨n2, r2, hmem, heq⟩
          exact ⟨n2, r2, List.mem_cons_of_mem _ hmem, heq⟩

theorem fullDirListF_nodup :
    ∀ (fd : Nat) (es : List FsEntry) (segs : List String) (fw : Nat),
      nodupNames es = true → es.all (wfEntryF fw) = true →
      (fullDirListF fd segs es).Nodup := by
  intro fd
  induction fd with
  | zero => intro es segs fw _ _; simp [fullDirListF]
  | succ fd ih =>
    intro es segs fw hn hw
    cases es with
    | nil => simp [fullDirListF]
    | cons e rest =>
      have hn2 : nodupNames rest = true := by
        unfold nodupNames at hn ⊢
        simp only [namesOf, List.map_cons] at hn
        exact (nodupStr_head hn).2
      have hw2 : rest.all (wfEntryF fw) = true := by
        rw [List.all_cons, Bool.and_eq_true] at hw
        exact hw.2
      cases e with
      | file n =>
        simp only [fullDirListF]
        exact ih rest segs fw hn2 hw2
      | symlink n t =>
        simp only [fullDirListF]
        exact ih rest segs fw hn2 hw2
      | dir n es2 =>
        have hnotin : n ∉ namesOf rest := by
          unfold nodupNames at hn
          simp only [namesOf, List.map_cons] at hn
          exact (nodupStr_head hn).1
        have hwdir : wfEntryF fw (FsEntry.dir n es2) = true := by
          rw [List.all_cons, Bool.and_eq_true] at hw
          exact hw.1
        cases fw with
        | zero => simp [wfEntryF] at hwdir
        | succ fw =>
          rw [wfEntryF, Bool.and_eq_true] at hwdir
          simp only [fullDirListF]
          rw [List.nodup_cons]
          constructor
          · rw [List.mem_append]
            rintro (hq | hq)
            · rcases fullDirListF_shape fd es2 (segs ++ [n]) _ hq with ⟨m, r, _, heq⟩
              have := congrArg List.length heq
              simp [List.length_append] at this
            · rcases fullDirListF_shape fd rest segs _ hq with ⟨n2, r2, hmem, heq⟩
              have hcan : [n] = n2 :: r2 := List.append_cancel_left heq
              have : n2 = n := by
                injection hcan with h1 _
                exact h1.symm
              exact hnotin (this ▸ hmem)
          · apply List.Nodup.append
            · exact ih es2 (segs ++ [n]) fw hwdir.1 hwdir.2
            · exact ih rest segs (fw + 1) hn2 hw2
            · intro q hq1 hq2
              rcases fullDirListF_shape fd es2 (segs ++ [n]) _ hq1 with ⟨m, r, _, heq1⟩
              rcases fullDirListF_shape fd rest segs _ hq2 with ⟨n2, r2, hmem2, heq2⟩
              rw [heq1] at heq2
              have hx : n :: m :: r = n2 :: r2 := by
                have h3 : segs ++ n :: m :: r = segs ++ n2 :: r2 := by
                  simpa [List.append_assoc] using heq2
                exact List.append_cancel_left h3
              have : n2 = n := by
                injection hx with h1 _
                exact h1.symm
              exact hnotin (this ▸ hmem2)

theorem walkEntriesF_entered :
    ∀ (f : Nat) (fl : Filter) (md : Int) (es : List FsEntry) (segs : List String)
      (acc : WalkAcc),
      ∃ new, (walkEntriesF f fl md segs acc es).entered = acc.entered ++ new
        ∧ new.Sublist (fullDirListF f segs es) := by
  intro f fl md
  induction f with
  | zero =>
    intro es segs acc
    exact ⟨[], by simp [walkEntriesF], by simp [fullDirListF]⟩
  | succ f ih =>
    intro es segs acc
    cases es with
    | nil => exact ⟨[], by simp [walkEntriesF], by simp [fullDirListF]⟩
    | cons e rest =>
      cases e with
      | file name =>
        by_cases hS : fl.ShouldInclude (joinSegs (childSegs segs name)) = true
        · obtain ⟨new, h1, h2⟩ :=
            ih rest segs { acc with jobs := acc.jobs ++ [joinSegs (childSegs segs name)] }
          exact ⟨new, by simpa [walkEntriesF, hS] using h1, by simpa [fullDirListF] using h2⟩
        · obtain ⟨new, h1, h2⟩ := ih rest segs acc
          exact ⟨new, by simpa [walkEntriesF, hS] using h1, by simpa [fullDirListF] using h2⟩
      | symlink name t =>
        rcases t with _ | ⟨rp, isDir⟩
        · obtain ⟨new, h1, h2⟩ := ih rest segs acc
          exact ⟨new, by simpa [walkEntriesF] using h1, by simpa [fullDirListF] using h2⟩
        · by_cases hv : rp ∈ acc.visitedDirs
          · exact ⟨[], by simp [walkEntriesF, hv], by simp⟩
          · have hv2 : rp ∉ acc.visitedDirs := hv
            rcases isDir with _ | _
            · by_cases hS : fl.ShouldInclude (joinSegs (childSegs segs name)) = true
              · obtain ⟨new, h1, h2⟩ := ih rest segs
                  { acc with jobs := acc.jobs ++ [joinSegs (childSegs segs name)] }
                exact ⟨new, by simpa [walkEntriesF, hv2, hS] using h1,
                  by simpa [fullDirListF] using h2⟩
              · obtain ⟨new, h1, h2⟩ := ih rest segs acc
                exact ⟨new, by simpa [walkEntriesF, hv2, hS] using h1,
                  by simpa [fullDirListF] using h2⟩
            · by_cases hS : fl.ShouldInclude (joinSegs (childSegs segs name)) = true
              · obtain ⟨new, h1, h2⟩ := ih rest segs
                  { acc with visitedDirs := acc.visitedDirs ++ [rp],
                             jobs := acc.jobs ++ [joinSegs (childSegs segs name)] }
                exact ⟨new, by simpa [walkEntriesF, hv2, hS] using h1,
                  by simpa [fullDirListF] using h2⟩
              · obtain ⟨new, h1, h2⟩ := ih rest segs
                  { acc with visitedDirs := acc.visitedDirs ++ [rp] }
                exact ⟨new, by simpa [walkEntriesF, hv2, hS] using h1,
                  by simpa [fullDirListF] using h2⟩
      | dir name es2 =>
        by_cases hd : md > 0 ∧ (depthOf (joinSegs (childSegs segs name)) : Int) > md
        · obtain ⟨new, h1, h2⟩ := ih rest segs acc
          refine ⟨new, by simpa [walkEntriesF, hd] using h1, ?_⟩
          simp only [fullDirListF]
          exact (h2.trans (List.sublist_append_right _ _)).cons _
        · by_cases hS : fl.ShouldInclude (joinSegs (childSegs segs name) ++ "/dummy.go")
            = true
          · obtain ⟨new1, h11, h12⟩ := ih es2 (childSegs segs name)
              { acc with entered := acc.entered ++ [childSegs segs name] }
            obtain ⟨new2, h21, h22⟩ := ih rest segs
              (walkEntriesF f fl md (childSegs segs name)
                { acc with entered := acc.entered ++ [childSegs segs name] } es2)
            refine ⟨childSegs segs name :: (new1 ++ new2), ?_, ?_⟩
            · rw [show walkEntriesF (f + 1) fl md segs acc (FsEntry.dir name es2 :: rest)
                  = walkEntriesF f fl md segs
                      (walkEntriesF f fl md (childSegs segs name)
                        { acc with entered := acc.entered ++ [childSegs segs name] } es2)
                      rest from by simp [walkEntriesF, hd, hS]]
              rw [h21, h11]
              simp [childSegs]
            · simp only [fullDirListF]
              exact (h12.append h22).cons₂ _
          · obtain ⟨new, h1, h2⟩ := ih rest segs acc
            refine ⟨new, by simpa [walkEntriesF, hd, hS] using h1, ?_⟩
            simp only [fullDirListF]
            exact (h2.trans (List.sublist_append_right _ _)).cons _

/-- Tree with two links to the same real directory target followed by a
regular file. -/
def c8tree : List FsEntry :=
  [FsEntry.symlink "l1" (some ("/t", true)), FsEntry.symlink "l2" (some ("/t", true)),
   FsEntry.file "z.txt"]

/-- Counterexample to claim C8: when the second link's real target is
already recorded as visited, the claim says the link is skipped together
with its own subtree, which would leave the sibling file `z.txt` (which
passes the filter) to be enumerated; the code instead returns
`filepath.SkipDir` from a non-directory entry, which makes `WalkDir`
skip ALL remaining entries of the containing directory, so no job at all
is emitted. -/
theorem symlink_sibling_skip_counterexample :
    defaultFilter.ShouldInclude "z.txt" = true
    ∧ (walkTree defaultFilter 0 c8tree).visitedDirs = ["/t"]
    ∧ (walkTree defaultFilter 0 c8tree).jobs = [] :=
  ⟨by decide, by decide, by decide⟩

/-- Claim C8 as amended: the traversal (which never follows a link, so a
finite tree bounds it and it terminates) reads any given real
directory's listing at most once; a broken link is skipped silently; a
link whose real target is already recorded as visited causes the rest of
the containing directory's entries to be skipped (`SkipDir` from a
non-directory entry); a link to an unvisited real directory records the
target as visited but is not descended into — the link itself just falls
through to the per-file filter. -/
theorem symlink_traversal_amended :
    (∀ (fl : Filter) (md : Int) (es : List FsEntry) (fw : Nat),
      nodupNames es = true → es.all (wfEntryF fw) = true →
      (walkTree fl md es).entered.Nodup)
    ∧ (∀ (f : Nat) (fl : Filter) (md : Int) (segs : List String) (acc : WalkAcc)
        (n : String) (rest : List FsEntry),
        walkEntriesF (f + 1) fl md segs acc (FsEntry.symlink n none :: rest)
          = walkEntriesF f fl md segs acc rest)
    ∧ (∀ (f : Nat) (fl : Filter) (md : Int) (segs : List String) (acc : WalkAcc)
        (n rp : String) (b : Bool) (rest : List FsEntry),
        acc.visitedDirs.contains rp = true →
        walkEntriesF (f + 1) fl md segs acc (FsEntry.symlink n (some (rp, b)) :: rest)
          = acc)
    ∧ (∀ (f : Nat) (fl : Filter) (md : Int) (segs : List String) (acc : WalkAcc)
        (n rp : String) (rest : List FsEntry),
        acc.visitedDirs.contains rp = false →
        fl.ShouldInclude (joinSegs (childSegs segs n)) = false →
        walkEntriesF (f + 1) fl md segs acc (FsEntry.symlink n (some (rp, true)) :: rest)
          = walkEntriesF f fl md segs
              { acc with visitedDirs := acc.visitedDirs ++ [rp] } rest) := by
  refine ⟨fun fl md es fw hn hw => ?_, fun f fl md segs acc n rest => ?_,
    fun f fl md segs acc n rp b rest hv => ?_,
    fun f fl md segs acc n rp rest hv hS => ?_⟩
  · obtain ⟨new, h1, h2⟩ :=
      walkEntriesF_entered (entrySize.entriesSize es + 1) fl md es [] wAcc0
    have hfull := fullDirListF_nodup (entrySize.entriesSize es + 1) es [] fw hn hw
    have hnodup2 : new.Nodup := h2.nodup hfull
    have hnotin : [] ∉ new := by
      intro hmem
      rcases fullDirListF_shape (entrySize.entriesSize es + 1) es [] [] (h2.subset hmem)
        with ⟨m, r, _, heq⟩
      simp at heq
    show (walkEntriesF (entrySize.entriesSize es + 1) fl md [] wAcc0 es).entered.Nodup
    rw [h1]
    show ([] :: new).Nodup
    exact List.nodup_cons.mpr ⟨hnotin, hnodup2⟩
  · simp [walkEntriesF]
  · have hv2 : rp ∈ acc.visitedDirs := by simpa using hv
    simp [walkEntriesF, hv2]
  · have hv2 : rp ∉ acc.visitedDirs := by simpa using hv
    simp [walkEntriesF, hv2, hS]

/-- A small well-formed tree for the C8 witness. -/
def wTree8 : List FsEntry :=
  [FsEntry.dir "d" [FsEntry.file "f.txt"], FsEntry.file "g.txt"]

/-- An accumulator that has already visited the real path `/t`. -/
def wAccV : WalkAcc := { visitedDirs := ["/t"], jobs := [], entered := [[]] }

/-- Witness for the amended C8 theorem: the visit-at-most-once property
at a concrete well-formed tree, and the three symlink clauses at
concrete accumulators. -/
theorem symlink_traversal_amended_witness :
    (nodupNames wTree8 = true ∧ wTree8.all (wfEntryF 3) = true
      ∧ (walkTree defaultFilter 0 wTree8).entered.Nodup)
    ∧ walkEntriesF 4 defaultFilter 0 [] wAcc0 [FsEntry.symlink "b" none]
        = walkEntriesF 3 defaultFilter 0 [] wAcc0 []
    ∧ (wAccV.visitedDirs.contains "/t" = true
      ∧ walkEntriesF 4 defaultFilter 0 [] wAccV
          [FsEntry.symlink "l2" (some ("/t", true)), FsEntry.file "z.txt"] = wAccV)
    ∧ (wAcc0.visitedDirs.contains "/t" = false
      ∧ defaultFilter.ShouldInclude (joinSegs (childSegs [] "l1")) = false
      ∧ walkEntriesF 4 defaultFilter 0 [] wAcc0 [FsEntry.symlink "l1" (some ("/t", true))]
          = walkEntriesF 3 defaultFilter 0 []
              { wAcc0 with visitedDirs := wAcc0.visitedDirs ++ ["/t"] } []) :=
  ⟨⟨by decide, by decide,
    symlink_traversal_amended.1 defaultFilter 0 wTree8 3 (by decide) (by decide)⟩,
   symlink_traversal_amended.2.1 3 defaultFilter 0 [] wAcc0 "b" [],
   ⟨by decide,
    symlink_traversal_amended.2.2.1 3 defaultFilter 0 [] wAccV "l2" "/t" true
      [FsEntry.file "z.txt"] (by decide)⟩,
   ⟨by decide, by decide,
    symlink_traversal_amended.2.2.2 3 defaultFilter 0 [] wAcc0 "l1" "/t" []
      (by decide) (by decide)⟩⟩

end Bcopy
